import Mathlib

/-!
Verification of the offset-reconciliation and replica-health core of
`kafka-utils` (files `kafka_utils/util/monitoring.py` and the
under-replication checker exercised by
`tests/kafka_check/test_under_replicated.py`).

Python dictionaries are modelled as association lists (`PyDict`): the list
holds the dict's items in iteration order, lookup returns the first match,
and `dictSet` either updates the existing entry in place or appends a fresh
one, exactly as CPython insertion-ordered dicts behave.  Dictionary equality
in Python (`==`) is extensional, so theorems compare dictionaries through
`dictGet` at every key.  Fallible calls return `Except KafkaError`, and each
external collaborator (offset fetch, watermark fetch, metadata load) is a
function parameter, so theorems quantify over every behaviour of the
collaborator.
-/

/-- Association-list model of a Python `dict`: the entries in iteration
order. -/
abbrev PyDict (K V : Type) : Type := List (K × V)

/-- First-match lookup, the semantics of `d[k]` / `d.get(k)` on a dict whose
items are listed in order. -/
def dictGet {K V : Type} [DecidableEq K] : PyDict K V → K → Option V
  | [], _ => none
  | kv :: d, k => if kv.1 = k then some kv.2 else dictGet d k

/-- Membership test, the semantics of `k in d`. -/
def containsKey {K V : Type} [DecidableEq K] : PyDict K V → K → Bool
  | [], _ => false
  | kv :: d, k => kv.1 = k || containsKey d k

/-- Assignment `d[k] = v`: update the existing entry in place when the key
is present, otherwise append the new pair, as insertion-ordered Python
dicts do. -/
def dictSet {K V : Type} [DecidableEq K] (d : PyDict K V) (k : K) (v : V) : PyDict K V :=
  if containsKey d k then d.map (fun kv => if kv.1 = k then (k, v) else kv)
  else d ++ [(k, v)]

/-- The keys of a dict, in iteration order. -/
def dictKeys {K V : Type} (d : PyDict K V) : List K :=
  d.map (fun kv => kv.1)

/-- Partition number → committed offset, one topic's worth of offsets. -/
abbrev PartitionOffsetsMap : Type := PyDict Nat Int

/-- Topic name → (partition → offset), the shape returned by the offset
fetch collaborators. -/
abbrev TopicOffsetsMap : Type := PyDict String PartitionOffsetsMap

/-- High/low watermark pair for one partition, as returned by
`get_topics_watermarks`. -/
structure Watermark where
  highmark : Int
  lowmark : Int
deriving DecidableEq, Repr

/-- Topic name → (partition → watermark). -/
abbrev WatermarkMap : Type := PyDict String (PyDict Nat Watermark)

/-- The exceptions crossing this module's boundary.  `OtherError` stands for
the infinitely many exception kinds the module does not handle specially. -/
inductive KafkaError where
  | GroupCoordinatorNotAvailableError : KafkaError
  | KafkaUnavailableError : KafkaError
  | InvalidOffsetStorageError : String → KafkaError
  | KeyError : KafkaError
  | OtherError : Nat → KafkaError
deriving DecidableEq, Repr

/-- Behaviour of the `get_current_consumer_offsets` collaborator: arguments
are group, topics, raise_on_error, offset_storage. -/
abbrev OffsetFetch : Type :=
  String → List String → Bool → String → Except KafkaError TopicOffsetsMap

/-- Behaviour of the `get_topics_watermarks` collaborator: arguments are
topics, raise_on_error. -/
abbrev WatermarkFetch : Type :=
  List String → Bool → Except KafkaError WatermarkMap

/-- Model of `merge_partition_offsets(*partition_offsets)`: fold every source dict
into an output dict via `output[partition] = max(output.get(partition, 0),
offset)`. -/
def merge_partition_offsets (partition_offsets : List PartitionOffsetsMap) :
    PartitionOffsetsMap :=
  partition_offsets.foldl
    (fun output partition_offset =>
      partition_offset.foldl
        (fun output po =>
          dictSet output po.1 (max ((dictGet output po.1).getD 0) po.2))
        output)
    []

/-- Model of `merge_offsets_metadata(topics, *offsets_responses)`: for each topic of
`topics`, merge the partition maps of the responses containing the topic. -/
def merge_offsets_metadata (topics : List String)
    (offsets_responses : List TopicOffsetsMap) : TopicOffsetsMap :=
  topics.foldl
    (fun result topic =>
      dictSet result topic
        (merge_partition_offsets
          ((offsets_responses.filter (fun response => containsKey response topic)).map
            (fun response => (dictGet response topic).getD []))))
    []

/-- Model of `_get_current_offsets_dual`: fetch from zookeeper (errors propagate),
fetch from kafka absorbing only `GroupCoordinatorNotAvailableError` into an
empty dict, then merge both responses over the topic list. -/
def _get_current_offsets_dual (fetch : OffsetFetch) (group : String)
    (topics : List String) (raise_on_error : Bool) :
    Except KafkaError TopicOffsetsMap :=
  match fetch group topics false "zookeeper" with
  | .error e => .error e
  | .ok zk_offsets =>
    match fetch group topics false "kafka" with
    | .ok kafka_offsets =>
      .ok (merge_offsets_metadata topics [zk_offsets, kafka_offsets])
    | .error .GroupCoordinatorNotAvailableError =>
      .ok (merge_offsets_metadata topics [zk_offsets, []])
    | .error e => .error e

/-- Model of `get_current_offsets`: dispatch on the offset storage mode. -/
def get_current_offsets (fetch : OffsetFetch) (group : String)
    (topics : List String) (raise_on_error : Bool) (offset_storage : String) :
    Except KafkaError TopicOffsetsMap :=
  if offset_storage = "zookeeper" ∨ offset_storage = "kafka" then
    fetch group topics raise_on_error offset_storage
  else if offset_storage = "dual" then
    _get_current_offsets_dual fetch group topics raise_on_error
  else
    .error (.InvalidOffsetStorageError offset_storage)

/-- The `try: load_metadata_for_topics() except KafkaUnavailableError:
load_metadata_for_topics()` block.  `load n` is the outcome of the n-th
invocation of the client call; the second component counts invocations. -/
def load_metadata_with_retry (load : Nat → Except KafkaError Unit) :
    Except KafkaError Unit × Nat :=
  match load 0 with
  | .ok u => (.ok u, 1)
  | .error .KafkaUnavailableError =>
    match load 1 with
    | .ok u => (.ok u, 2)
    | .error e => (.error e, 2)
  | .error e => (.error e, 1)

/-- The `ConsumerPartitionOffsets` namedtuple. -/
structure ConsumerPartitionOffsets where
  topic : String
  partition : Nat
  current : Int
  highmark : Int
  lowmark : Int
deriving DecidableEq, Repr

/-- The list comprehension of `get_consumer_offsets_metadata`: for each
partition key of one topic's partition dict, build a
`ConsumerPartitionOffsets` row from `group_offsets[topic][partition]` and
`watermarks[topic][partition]`; a missing subscript raises `KeyError`. -/
def buildRows (group_offsets : TopicOffsetsMap) (watermarks : WatermarkMap)
    (topic : String) :
    List (Nat × Int) → Except KafkaError (List ConsumerPartitionOffsets)
  | [] => .ok []
  | pe :: rest =>
    match dictGet group_offsets topic with
    | none => .error .KeyError
    | some pd =>
      match dictGet pd pe.1 with
      | none => .error .KeyError
      | some current =>
        match dictGet watermarks topic with
        | none => .error .KeyError
        | some wt =>
          match dictGet wt pe.1 with
          | none => .error .KeyError
          | some wm =>
            match buildRows group_offsets watermarks topic rest with
            | .ok rows =>
              .ok (⟨topic, pe.1, current, wm.highmark, wm.lowmark⟩ :: rows)
            | .error e => .error e

/-- The result-assembly loop of `get_consumer_offsets_metadata`:
`result[topic] = [...]` for each (topic, partitions) item of the group
offsets. -/
def buildResult (group_offsets : TopicOffsetsMap) (watermarks : WatermarkMap) :
    List (String × PartitionOffsetsMap) →
    PyDict String (List ConsumerPartitionOffsets) →
    Except KafkaError (PyDict String (List ConsumerPartitionOffsets))
  | [], result => .ok result
  | te :: rest, result =>
    match buildRows group_offsets watermarks te.1 te.2 with
    | .error e => .error e
    | .ok rows => buildResult group_offsets watermarks rest (dictSet result te.1 rows)

/-- Model of `get_consumer_offsets_metadata`: refresh metadata (with the single
retry), reconcile group offsets, fetch watermarks, then assemble one
`ConsumerPartitionOffsets` row per topic-partition of the reconciled
offsets. -/
def get_consumer_offsets_metadata (load : Nat → Except KafkaError Unit)
    (fetch : OffsetFetch) (watermark_fetch : WatermarkFetch) (group : String)
    (topics : List String) (raise_on_error : Bool) (offset_storage : String) :
    Except KafkaError (PyDict String (List ConsumerPartitionOffsets)) :=
  match (load_metadata_with_retry load).1 with
  | .error e => .error e
  | .ok _ =>
    match get_current_offsets fetch group topics raise_on_error offset_storage with
    | .error e => .error e
    | .ok group_offsets =>
      match watermark_fetch topics raise_on_error with
      | .error e => .error e
      | .ok watermarks => buildResult group_offsets watermarks group_offsets []

/-- The offsets one source dict holds for partition `p`, in item order
(specification-side view of one source). -/
def valsAt (source : PartitionOffsetsMap) (p : Nat) : List Int :=
  source.filterMap (fun po => if po.1 = p then some po.2 else none)

/-- The offsets that the sources of `merge_partition_offsets` contribute to
partition `p`, in processing order (specification-side view of the merge). -/
def offsetsSeen (partition_offsets : List PartitionOffsetsMap) (p : Nat) : List Int :=
  (partition_offsets.map (fun source => valsAt source p)).flatten

/-- Watermark entry for one topic-partition, the double subscript
`watermarks[topic][partition]` as a partial lookup. -/
def watermarkAt (watermarks : WatermarkMap) (topic : String) (partition : Nat) :
    Option Watermark :=
  (dictGet watermarks topic).bind (fun wt => dictGet wt partition)

/-- Specification-side row builder: the snapshot
`get_consumer_offsets_metadata` produces for one (partition, offset) item of
one topic, given a total watermark table (the `none` branch is unreachable
under the totality hypothesis of the assembler theorem). -/
def snapshotOf (watermarks : WatermarkMap) (topic : String) (pe : Nat × Int) :
    ConsumerPartitionOffsets :=
  match watermarkAt watermarks topic pe.1 with
  | some w => ⟨topic, pe.1, pe.2, w.highmark, w.lowmark⟩
  | none => ⟨topic, pe.1, pe.2, 0, 0⟩

/-- The `PartitionMetadata` record consumed by the under-replication
checker, mirroring `kafka.common.PartitionMetadata`. -/
structure PartitionMetadata where
  topic : String
  partition : Nat
  leader : Nat
  replicas : List Nat
  isr : List Nat
  error : Nat
deriving DecidableEq, Repr

/-- Modelled from the spec: the file
`kafka_utils/kafka_check/commands/under_replicated.py` defining
`_process_topic_partition_metadata` is not among the provided sources (only
its tests are), so this follows the specified algorithm: for every (topic,
partition) entry, when the in-sync-replica set is smaller than
`min_isr`, append (topic, partition) to the result list of every broker
that is in `replicas` but not in `isr`. -/
def _process_topic_partition_metadata
    (metadata : PyDict String (PyDict Nat PartitionMetadata)) (min_isr : Nat) :
    PyDict Nat (List (String × Nat)) :=
  metadata.foldl
    (fun result te =>
      te.2.foldl
        (fun result pe =>
          if pe.2.isr.length < min_isr then
            (pe.2.replicas.filter (fun b => decide (b ∉ pe.2.isr))).foldl
              (fun result b =>
                dictSet result b (((dictGet result b).getD []) ++ [(te.1, pe.1)]))
              result
          else result)
        result)
    []

/-- The broker info record of the host-list formatter's input. -/
structure BrokerInfo where
  host : String
  port : Nat
deriving DecidableEq, Repr

/-- Rendering of one broker as `"host:port"`. -/
def renderBroker (b : BrokerInfo) : String :=
  b.host ++ ":" ++ toString b.port

/-- Join a list of strings with a single comma between consecutive entries
and no trailing separator (the semantics of Python `",".join`). -/
def joinComma : List String → String
  | [] => ""
  | [x] => x
  | x :: y :: t => x ++ "," ++ joinComma (y :: t)

/-- Modelled from the spec: `_prepare_host_list` of
`kafka_utils/kafka_check/commands/under_replicated.py` is not among the
provided sources (only its tests are); per the spec it renders each broker
of the id→info map as `"host:port"` and joins the renderings with `","`. -/
def _prepare_host_list (brokers : PyDict Nat BrokerInfo) : String :=
  joinComma (brokers.map (fun kv => renderBroker kv.2))

/-- Example backend behaviour: zookeeper holds offset 5 and kafka holds
offset 7 for partition 0 of topic "t". -/
def exFetchBoth : OffsetFetch := fun _ _ _ offset_storage =>
  if offset_storage = "zookeeper" then .ok [("t", [(0, 5)])]
  else .ok [("t", [(0, 7)])]

/-- Example backend behaviour: zookeeper holds offset 5 and the kafka-native
fetch fails with the group-coordinator-not-available condition. -/
def exFetchCoordinatorDown : OffsetFetch := fun _ _ _ offset_storage =>
  if offset_storage = "zookeeper" then .ok [("t", [(0, 5)])]
  else .error .GroupCoordinatorNotAvailableError

/-- Example backend behaviour: zookeeper succeeds and the kafka-native fetch
fails with an unhandled error. -/
def exFetchKafkaBroken : OffsetFetch := fun _ _ _ offset_storage =>
  if offset_storage = "zookeeper" then .ok [("t", [(0, 5)])]
  else .error (.OtherError 3)

/-- Partition 0 of `"topic1"` with replicas (300, 500, 666) and isr
(500, 666), the scenario of the under-replication tests. -/
def exMetadata : PyDict String (PyDict Nat PartitionMetadata) :=
  [("topic1", [(0, ⟨"topic1", 0, 666, [300, 500, 666], [500, 666], 0⟩)])]

/-- The single-broker map of the host-list test. -/
def exBrokerList : PyDict Nat BrokerInfo :=
  [(1000, ⟨"hostname00", 1234⟩)]

/-! ## Dictionary lemmas -/

theorem dictGet_nil {K V : Type} [DecidableEq K] (k : K) :
    dictGet ([] : PyDict K V) k = none := rfl

theorem dictGet_cons {K V : Type} [DecidableEq K] (kv : K × V) (d : PyDict K V) (k : K) :
    dictGet (kv :: d) k = if kv.1 = k then some kv.2 else dictGet d k := rfl

theorem containsKey_eq_false_iff {K V : Type} [DecidableEq K] (d : PyDict K V) (k : K) :
    containsKey d k = false ↔ dictGet d k = none := by
  induction d with
  | nil => simp [containsKey, dictGet]
  | cons kv d ih =>
    by_cases h : kv.1 = k <;> simp [containsKey, dictGet, h, ih]

theorem containsKey_iff_mem {K V : Type} [DecidableEq K] (d : PyDict K V) (k : K) :
    containsKey d k = true ↔ k ∈ dictKeys d := by
  induction d with
  | nil => simp [containsKey, dictKeys]
  | cons kv d ih =>
    by_cases h : kv.1 = k <;> simp [containsKey, dictKeys, h, ih] <;>
      simp [dictKeys] at ih ⊢ <;> tauto

theorem dictGet_append {K V : Type} [DecidableEq K] (d₁ d₂ : PyDict K V) (k : K) :
    dictGet (d₁ ++ d₂) k =
      match dictGet d₁ k with
      | some v => some v
      | none => dictGet d₂ k := by
  induction d₁ with
  | nil => simp [dictGet]
  | cons kv d ih =>
    by_cases h : kv.1 = k <;> simp [dictGet, h, ih]

theorem dictGet_map_replace {K V : Type} [DecidableEq K] (d : PyDict K V) (k k' : K) (v : V) :
    dictGet (d.map (fun kv => if kv.1 = k then (k, v) else kv)) k' =
      if k' = k then (if containsKey d k then some v else none) else dictGet d k' := by
  induction d with
  | nil => simp [dictGet, containsKey]
  | cons kv d ih =>
    simp only [List.map_cons, dictGet_cons, containsKey]
    by_cases h : kv.1 = k
    · by_cases h' : k' = k
      · subst h'
        simp [h]
      · have h0 : ¬ k = k' := fun he => h' he.symm
        have h1 : ¬ kv.1 = k' := by
          rw [h]; exact h0
        simp [h, h0, h1, ih, h']
    · by_cases h' : kv.1 = k'
      · have h2 : ¬ k' = k := by
          rw [← h']; exact h
        simp [h, h', h2]
      · simp [h, h', ih]

theorem dictGet_set {K V : Type} [DecidableEq K] (d : PyDict K V) (k k' : K) (v : V) :
    dictGet (dictSet d k v) k' = if k' = k then some v else dictGet d k' := by
  unfold dictSet
  by_cases hc : containsKey d k
  · rw [if_pos hc, dictGet_map_replace, hc]
    simp
  · rw [if_neg hc, dictGet_append]
    have hnone : dictGet d k = none := (containsKey_eq_false_iff d k).mp (by simpa using hc)
    by_cases h' : k' = k
    · subst h'; simp [hnone, dictGet]
    · have h2 : ¬ k = k' := fun he => h' he.symm
      cases hd : dictGet d k' <;> simp [dictGet, h', h2, hd]

theorem dictKeys_map_replace {K V : Type} [DecidableEq K] (d : PyDict K V) (k : K) (v : V) :
    dictKeys (d.map (fun kv => if kv.1 = k then (k, v) else kv)) = dictKeys d := by
  induction d with
  | nil => rfl
  | cons kv d ih =>
    by_cases h : kv.1 = k <;>
      simp only [List.map_cons, if_pos, if_neg, h, dictKeys] at ih ⊢ <;>
      rw [ih] <;> simp [h]

theorem dictKeys_set {K V : Type} [DecidableEq K] (d : PyDict K V) (k : K) (v : V) :
    dictKeys (dictSet d k v) =
      if containsKey d k then dictKeys d else dictKeys d ++ [k] := by
  unfold dictSet
  by_cases hc : containsKey d k
  · rw [if_pos hc, dictKeys_map_replace, if_pos hc]
  · rw [if_neg hc, if_neg hc, dictKeys, dictKeys, List.map_append]
    rfl

theorem nodup_dictKeys_set {K V : Type} [DecidableEq K] (d : PyDict K V) (k : K) (v : V)
    (h : (dictKeys d).Nodup) : (dictKeys (dictSet d k v)).Nodup := by
  rw [dictKeys_set]
  by_cases hc : containsKey d k
  · simpa [hc] using h
  · have hk : k ∉ dictKeys d := fun hm => hc ((containsKey_iff_mem d k).mpr hm)
    simp only [hc, if_false, Bool.false_eq_true]
    rw [List.nodup_append_comm]
    simpa using ⟨hk, h⟩

theorem dictGet_of_mem_nodup {K V : Type} [DecidableEq K] (d : PyDict K V)
    (h : (dictKeys d).Nodup) (kv : K × V) (hm : kv ∈ d) : dictGet d kv.1 = some kv.2 := by
  induction d with
  | nil => cases hm
  | cons kv' d ih =>
    rw [dictKeys, List.map_cons, List.nodup_cons] at h
    rcases List.mem_cons.mp hm with he | hm'
    · subst he; simp [dictGet]
    · have hne : ¬ kv'.1 = kv.1 := by
        intro he
        exact h.1 (by rw [he]; exact List.mem_map.mpr ⟨kv, hm', rfl⟩)
      simp only [dictGet, hne, if_false]
      exact ih h.2 hm'

/-! ## Max-fold lemmas -/

theorem foldl_max_init_le (l : List Int) (a : Int) : a ≤ l.foldl max a := by
  induction l generalizing a with
  | nil => exact le_refl a
  | cons x t ih => exact le_trans (le_max_left a x) (ih (max a x))

theorem foldl_max_mem_le (l : List Int) (a x : Int) (hx : x ∈ l) : x ≤ l.foldl max a := by
  induction l generalizing a with
  | nil => cases hx
  | cons y t ih =>
    rcases List.mem_cons.mp hx with he | hm
    · subst he
      exact le_trans (le_max_right a x) (foldl_max_init_le t (max a x))
    · exact ih (max a y) hm

theorem foldl_max_le (l : List Int) (a m : Int) (ha : a ≤ m) (hl : ∀ x ∈ l, x ≤ m) :
    l.foldl max a ≤ m := by
  induction l generalizing a with
  | nil => exact ha
  | cons x t ih =>
    exact ih (max a x) (max_le ha (hl x (List.mem_cons_self x t)))
      (fun y hy => hl y (List.mem_cons_of_mem x hy))

theorem foldl_max_mem_or (l : List Int) (a : Int) :
    l.foldl max a = a ∨ l.foldl max a ∈ l := by
  induction l generalizing a with
  | nil => exact Or.inl rfl
  | cons x t ih =>
    rcases ih (max a x) with h | h
    · rcases max_choice a x with hm | hm
      · exact Or.inl (by rw [List.foldl_cons, h, hm])
      · exact Or.inr (by rw [List.foldl_cons, h, hm]; exact List.mem_cons_self x t)
    · exact Or.inr (List.mem_cons_of_mem x h)

theorem foldl_max_pull (l : List Int) (a b : Int) :
    l.foldl max (max a b) = max a (l.foldl max b) := by
  induction l generalizing b with
  | nil => rfl
  | cons x t ih =>
    rw [List.foldl_cons, List.foldl_cons, max_assoc, ih (max b x)]

theorem foldl_max_append_split (X Y : List Int) :
    (X ++ Y).foldl max 0 = max (X.foldl max 0) (Y.foldl max 0) := by
  rw [List.foldl_append]
  have h0 : (0 : Int) ≤ X.foldl max 0 := foldl_max_init_le X 0
  calc Y.foldl max (X.foldl max 0)
      = Y.foldl max (max (X.foldl max 0) 0) := by rw [max_eq_left h0]
    _ = max (X.foldl max 0) (Y.foldl max 0) := foldl_max_pull Y _ 0

theorem foldl_max_perm {l₁ l₂ : List Int} (h : l₁.Perm l₂) (a : Int) :
    l₁.foldl max a = l₂.foldl max a := by
  induction h generalizing a with
  | nil => rfl
  | cons x _ ih => rw [List.foldl_cons, List.foldl_cons, ih]
  | swap x y l =>
    have hc : max (max a y) x = max (max a x) y := by
      rw [max_assoc, max_comm y x, ← max_assoc]
    rw [List.foldl_cons, List.foldl_cons, List.foldl_cons, List.foldl_cons, hc]
  | trans _ _ ih₁ ih₂ => rw [ih₁, ih₂]

/-! ## Characterization of the merge primitives -/

theorem valsAt_nil (p : Nat) : valsAt [] p = [] := rfl

theorem valsAt_cons (q : Nat × Int) (t : PartitionOffsetsMap) (p : Nat) :
    valsAt (q :: t) p = if q.1 = p then q.2 :: valsAt t p else valsAt t p := by
  by_cases h : q.1 = p <;> simp [valsAt, List.filterMap_cons, h]

theorem offsetsSeen_nil (p : Nat) : offsetsSeen [] p = [] := rfl

theorem offsetsSeen_cons (src : PartitionOffsetsMap) (rest : List PartitionOffsetsMap)
    (p : Nat) : offsetsSeen (src :: rest) p = valsAt src p ++ offsetsSeen rest p := by
  simp [offsetsSeen]

theorem offsetsSeen_append (S T : List PartitionOffsetsMap) (p : Nat) :
    offsetsSeen (S ++ T) p = offsetsSeen S p ++ offsetsSeen T p := by
  simp [offsetsSeen]

theorem innerFold_char (l : List (Nat × Int)) (out : PartitionOffsetsMap) (p : Nat) :
    dictGet
      (l.foldl
        (fun output po =>
          dictSet output po.1 (max ((dictGet output po.1).getD 0) po.2))
        out) p =
    if valsAt l p = [] then dictGet out p
    else some ((valsAt l p).foldl max ((dictGet out p).getD 0)) := by
  induction l generalizing out with
  | nil => simp [valsAt]
  | cons q t ih =>
    rw [List.foldl_cons, ih, valsAt_cons]
    by_cases hq : q.1 = p
    · rw [if_pos hq]
      have hget : dictGet (dictSet out q.1 (max ((dictGet out q.1).getD 0) q.2)) p =
          some (max ((dictGet out p).getD 0) q.2) := by
        rw [dictGet_set]
        simp [hq]
      by_cases ht : valsAt t p = []
      · simp [ht, hget]
      · simp only [ht, if_false, hget]
        have : (q.2 :: valsAt t p) ≠ [] := by simp
        simp only [this, if_false, List.foldl_cons, Option.getD_some]
    · rw [if_neg hq]
      have hget : dictGet (dictSet out q.1 (max ((dictGet out q.1).getD 0) q.2)) p =
          dictGet out p := by
        rw [dictGet_set, if_neg (fun he => hq he.symm)]
      rw [hget]

theorem mergeFrom_char (S : List PartitionOffsetsMap) (out : PartitionOffsetsMap) (p : Nat) :
    dictGet
      (S.foldl
        (fun output partition_offset =>
          partition_offset.foldl
            (fun output po =>
              dictSet output po.1 (max ((dictGet output po.1).getD 0) po.2))
            output)
        out) p =
    if offsetsSeen S p = [] then dictGet out p
    else some ((offsetsSeen S p).foldl max ((dictGet out p).getD 0)) := by
  induction S generalizing out with
  | nil => simp [offsetsSeen]
  | cons src rest ih =>
    rw [List.foldl_cons, ih, offsetsSeen_cons]
    rw [innerFold_char]
    by_cases hA : valsAt src p = []
    · simp only [hA, List.nil_append]
      by_cases hR : offsetsSeen rest p = [] <;> simp [hR]
    · by_cases hR : offsetsSeen rest p = []
      · simp only [hR, List.append_nil, hA, if_false]
        simp [hA]
      · have hAR : valsAt src p ++ offsetsSeen rest p ≠ [] := by
          simp [hA]
        simp only [hA, hR, if_false, hAR, Option.getD_some, List.foldl_append]

theorem merge_char (S : List PartitionOffsetsMap) (p : Nat) :
    dictGet (merge_partition_offsets S) p =
    if offsetsSeen S p = [] then none
    else some ((offsetsSeen S p).foldl max 0) := by
  unfold merge_partition_offsets
  rw [mergeFrom_char]
  simp [dictGet]

theorem momdFold_char (topics : List String) (responses : List TopicOffsetsMap)
    (acc : TopicOffsetsMap) (t : String) :
    dictGet
      (topics.foldl
        (fun result topic =>
          dictSet result topic
            (merge_partition_offsets
              ((responses.filter (fun response => containsKey response topic)).map
                (fun response => (dictGet response topic).getD []))))
        acc) t =
    if t ∈ topics then
      some (merge_partition_offsets
        ((responses.filter (fun response => containsKey response t)).map
          (fun response => (dictGet response t).getD [])))
    else dictGet acc t := by
  induction topics generalizing acc with
  | nil => simp
  | cons tp rest ih =>
    rw [List.foldl_cons, ih]
    by_cases hmem : t ∈ rest
    · simp [hmem]
    · rw [if_neg hmem, dictGet_set]
      by_cases he : t = tp
      · subst he; simp
      · simp [List.mem_cons, he, hmem]

theorem merge_offsets_metadata_char (topics : List String)
    (responses : List TopicOffsetsMap) (t : String) :
    dictGet (merge_offsets_metadata topics responses) t =
    if t ∈ topics then
      some (merge_partition_offsets
        ((responses.filter (fun response => containsKey response t)).map
          (fun response => (dictGet response t).getD [])))
    else none := by
  unfold merge_offsets_metadata
  rw [momdFold_char]
  simp [dictGet]

theorem innerFold_nodup (l : List (Nat × Int)) (out : PartitionOffsetsMap)
    (h : (dictKeys out).Nodup) :
    (dictKeys
      (l.foldl
        (fun output po =>
          dictSet output po.1 (max ((dictGet output po.1).getD 0) po.2))
        out)).Nodup := by
  induction l generalizing out with
  | nil => exact h
  | cons q t ih => exact ih _ (nodup_dictKeys_set _ _ _ h)

theorem merge_partition_offsets_nodup (S : List PartitionOffsetsMap) :
    (dictKeys (merge_partition_offsets S)).Nodup := by
  unfold merge_partition_offsets
  have main : ∀ (S : List PartitionOffsetsMap) (out : PartitionOffsetsMap),
      (dictKeys out).Nodup →
      (dictKeys
        (S.foldl
          (fun output partition_offset =>
            partition_offset.foldl
              (fun output po =>
                dictSet output po.1 (max ((dictGet output po.1).getD 0) po.2))
              output)
          out)).Nodup := by
    intro S
    induction S with
    | nil => intro out h; exact h
    | cons src rest ih =>
      intro out h
      exact ih _ (innerFold_nodup src out h)
  exact main S [] (by simp [dictKeys])

theorem valsAt_eq_nil_of_not_mem (d : PartitionOffsetsMap) (p : Nat)
    (h : p ∉ dictKeys d) : valsAt d p = [] := by
  induction d with
  | nil => rfl
  | cons q t ih =>
    rw [dictKeys, List.map_cons] at h
    have hq : ¬ q.1 = p := by
      intro he
      apply h
      rw [← he]
      exact List.mem_cons_self _ _
    rw [valsAt_cons, if_neg hq]
    exact ih (fun hm => h (List.mem_cons_of_mem _ hm))

theorem valsAt_of_nodup (d : PartitionOffsetsMap) (p : Nat)
    (h : (dictKeys d).Nodup) :
    valsAt d p = ((dictGet d p).map (fun v => [v])).getD [] := by
  induction d with
  | nil => rfl
  | cons q t ih =>
    rw [dictKeys, List.map_cons, List.nodup_cons] at h
    rw [valsAt_cons, dictGet_cons]
    by_cases hq : q.1 = p
    · rw [if_pos hq, if_pos hq]
      have ht : valsAt t p = [] :=
        valsAt_eq_nil_of_not_mem t p (fun hm => h.1 (hq ▸ hm))
      simp [ht]
    · rw [if_neg hq, if_neg hq]
      exact ih h.2

theorem merge_flatten (U S T : List PartitionOffsetsMap) (p : Nat) :
    dictGet (merge_partition_offsets (U ++ merge_partition_offsets S :: T)) p =
    dictGet (merge_partition_offsets (U ++ S ++ T)) p := by
  rw [merge_char, merge_char]
  have hM : valsAt (merge_partition_offsets S) p =
      if offsetsSeen S p = [] then []
      else [(offsetsSeen S p).foldl max 0] := by
    rw [valsAt_of_nodup _ _ (merge_partition_offsets_nodup S), merge_char]
    by_cases hB : offsetsSeen S p = [] <;> simp [hB]
  have hseen₁ : offsetsSeen (U ++ merge_partition_offsets S :: T) p =
      offsetsSeen U p ++ (valsAt (merge_partition_offsets S) p ++ offsetsSeen T p) := by
    rw [offsetsSeen_append, offsetsSeen_cons]
  have hseen₂ : offsetsSeen (U ++ S ++ T) p =
      offsetsSeen U p ++ (offsetsSeen S p ++ offsetsSeen T p) := by
    rw [offsetsSeen_append, offsetsSeen_append, List.append_assoc]
  rw [hseen₁, hseen₂, hM]
  by_cases hB : offsetsSeen S p = []
  · rw [if_pos hB, hB]
  · rw [if_neg hB]
    have h0v : (0 : Int) ≤ (offsetsSeen S p).foldl max 0 := foldl_max_init_le _ 0
    have hne₁ : offsetsSeen U p ++
        ([(offsetsSeen S p).foldl max 0] ++ offsetsSeen T p) ≠ [] := by
      simp
    have hne₂ : offsetsSeen U p ++ (offsetsSeen S p ++ offsetsSeen T p) ≠ [] := by
      simp [hB]
    rw [if_neg hne₁, if_neg hne₂]
    rw [foldl_max_append_split, foldl_max_append_split,
      foldl_max_append_split, foldl_max_append_split]
    have hv : ([(offsetsSeen S p).foldl max 0] : List Int).foldl max 0 =
        (offsetsSeen S p).foldl max 0 := by
      simp [max_eq_right h0v]
    rw [hv]

theorem offsetsSeen_perm {S₁ S₂ : List PartitionOffsetsMap} (h : S₁.Perm S₂) (p : Nat) :
    (offsetsSeen S₁ p).Perm (offsetsSeen S₂ p) := by
  induction h with
  | nil => exact List.Perm.refl _
  | cons x _ ih =>
    rw [offsetsSeen_cons, offsetsSeen_cons]
    exact ih.append_left _
  | swap x y l =>
    rw [offsetsSeen_cons, offsetsSeen_cons, offsetsSeen_cons, offsetsSeen_cons,
      ← List.append_assoc, ← List.append_assoc]
    exact List.perm_append_comm.append_right _
  | trans _ _ ih₁ ih₂ => exact ih₁.trans ih₂

theorem merge_perm {S₁ S₂ : List PartitionOffsetsMap} (h : S₁.Perm S₂) (p : Nat) :
    dictGet (merge_partition_offsets S₁) p = dictGet (merge_partition_offsets S₂) p := by
  rw [merge_char, merge_char]
  have hp := offsetsSeen_perm h p
  have hiff : offsetsSeen S₁ p = [] ↔ offsetsSeen S₂ p = [] := by
    constructor <;> intro he
    · have := hp.length_eq
      rw [he] at this
      exact List.length_eq_zero.mp this.symm
    · have := hp.length_eq
      rw [he] at this
      exact List.length_eq_zero.mp this
  by_cases h₁ : offsetsSeen S₁ p = []
  · rw [if_pos h₁, if_pos (hiff.mp h₁)]
  · rw [if_neg h₁, if_neg (fun h₂ => h₁ (hiff.mpr h₂)), foldl_max_perm hp]

theorem merge_dup (S : List PartitionOffsetsMap) (d : PartitionOffsetsMap)
    (hd : d ∈ S) (p : Nat) :
    dictGet (merge_partition_offsets (S ++ [d])) p =
    dictGet (merge_partition_offsets S) p := by
  rw [merge_char, merge_char, offsetsSeen_append, offsetsSeen_cons, offsetsSeen_nil,
    List.append_nil]
  have hmem : ∀ x ∈ valsAt d p, x ∈ offsetsSeen S p := by
    intro x hx
    simp only [offsetsSeen, List.mem_flatten]
    exact ⟨valsAt d p, List.mem_map_of_mem _ hd, hx⟩
  by_cases hX : offsetsSeen S p = []
  · have hD : valsAt d p = [] := by
      cases hDv : valsAt d p with
      | nil => rfl
      | cons x t =>
        have : x ∈ offsetsSeen S p := hmem x (by rw [hDv]; exact List.mem_cons_self _ _)
        rw [hX] at this
        cases this
    simp [hX, hD]
  · have hne : offsetsSeen S p ++ valsAt d p ≠ [] := by simp [hX]
    rw [if_neg hne, if_neg hX, foldl_max_append_split]
    have hle : (valsAt d p).foldl max 0 ≤ (offsetsSeen S p).foldl max 0 :=
      foldl_max_le _ _ _ (foldl_max_init_le _ 0)
        (fun x hx => foldl_max_mem_le _ _ _ (hmem x hx))
    rw [max_eq_left hle]

/-! ## Claim C2 -/

/-- C2 counterexample: with the single source mapping partition 0 to -5, the merged
value at partition 0 is 0 (the accumulator default participates in the max),
not the maximum seen offset -5, refuting the claim for arbitrary integer
offsets. -/
theorem merge_partition_offsets_negative_offset_counterexample :
    dictGet (merge_partition_offsets [[(0, -5)]]) 0 = some 0 ∧
    dictGet (merge_partition_offsets [[(0, -5)]]) 0 ≠ some (-5) := by
  decide

/-- C2 (amended): the map returned by `merge_partition_offsets` contains a
partition exactly when some source contains it, and assigns it the maximum
of 0 and all offsets seen for that partition across all sources: the value
is non-negative, bounds every seen offset, and is either a seen offset or
the running accumulator's default 0 — so it equals the maximum seen offset
whenever any seen offset is non-negative, and the default 0 stands in
whenever the partition's seen offsets are all negative. -/
theorem merge_partition_offsets_clamped_max (S : List PartitionOffsetsMap) (p : Nat) :
    (dictGet (merge_partition_offsets S) p = none ↔ offsetsSeen S p = []) ∧
    (∀ v, dictGet (merge_partition_offsets S) p = some v →
      0 ≤ v ∧ (∀ o ∈ offsetsSeen S p, o ≤ v) ∧ (v ∈ offsetsSeen S p ∨ v = 0)) := by
  constructor
  · rw [merge_char]
    by_cases h : offsetsSeen S p = [] <;> simp [h]
  · intro v hv
    rw [merge_char] at hv
    by_cases h : offsetsSeen S p = []
    · rw [if_pos h] at hv; cases hv
    · rw [if_neg h] at hv
      injection hv with hv
      subst hv
      refine ⟨foldl_max_init_le _ 0, fun o ho => foldl_max_mem_le _ _ _ ho, ?_⟩
      rcases foldl_max_mem_or (offsetsSeen S p) 0 with h0 | hmem
      · exact Or.inr h0
      · exact Or.inl hmem

/-- Closed instance of the amended C2 theorem at the counterexample input. -/
theorem merge_partition_offsets_clamped_max_witness :
    0 ≤ (0 : Int) ∧ (∀ o ∈ offsetsSeen [[(0, -5)]] 0, o ≤ 0) ∧
      ((0 : Int) ∈ offsetsSeen [[(0, -5)]] 0 ∨ (0 : Int) = 0) :=
  (merge_partition_offsets_clamped_max [[(0, -5)]] 0).2 0 (by decide)

/-! ## Claim C10 -/

/-- C10: every value of a `merge_partition_offsets` result is non-negative
even when source offsets are negative, and consequently so is every merged
current offset produced by `merge_offsets_metadata` and by dual-mode
reconciliation. -/
theorem merged_offsets_nonneg :
    (∀ (S : List PartitionOffsetsMap) (p : Nat) (v : Int),
      dictGet (merge_partition_offsets S) p = some v → 0 ≤ v) ∧
    (∀ (topics : List String) (responses : List TopicOffsetsMap) (t : String)
      (pd : PartitionOffsetsMap) (p : Nat) (v : Int),
      dictGet (merge_offsets_metadata topics responses) t = some pd →
      dictGet pd p = some v → 0 ≤ v) ∧
    (∀ (fetch : OffsetFetch) (group : String) (topics : List String)
      (raise_on_error : Bool) (d : TopicOffsetsMap) (t : String)
      (pd : PartitionOffsetsMap) (p : Nat) (v : Int),
      _get_current_offsets_dual fetch group topics raise_on_error = .ok d →
      dictGet d t = some pd → dictGet pd p = some v → 0 ≤ v) := by
  have part1 : ∀ (S : List PartitionOffsetsMap) (p : Nat) (v : Int),
      dictGet (merge_partition_offsets S) p = some v → 0 ≤ v := by
    intro S p v hv
    rw [merge_char] at hv
    by_cases h : offsetsSeen S p = []
    · rw [if_pos h] at hv; cases hv
    · rw [if_neg h] at hv
      injection hv with hv
      subst hv
      exact foldl_max_init_le _ 0
  have part2 : ∀ (topics : List String) (responses : List TopicOffsetsMap) (t : String)
      (pd : PartitionOffsetsMap) (p : Nat) (v : Int),
      dictGet (merge_offsets_metadata topics responses) t = some pd →
      dictGet pd p = some v → 0 ≤ v := by
    intro topics responses t pd p v ht hp
    rw [merge_offsets_metadata_char] at ht
    by_cases h : t ∈ topics
    · rw [if_pos h] at ht
      injection ht with ht
      subst ht
      exact part1 _ _ _ hp
    · rw [if_neg h] at ht; cases ht
  refine ⟨part1, part2, ?_⟩
  intro fetch group topics roe d t pd p v hd ht hp
  unfold _get_current_offsets_dual at hd
  cases hz : fetch group topics false "zookeeper" with
  | error image =>
    rw [hz] at hd
    exact Except.noConfusion hd
  | ok zk =>
    rw [hz] at hd
    cases hk : fetch group topics false "kafka" with
    | ok kafka =>
      rw [hk] at hd
      injection hd with hd
      subst hd
      exact part2 _ _ _ _ _ _ ht hp
    | error e =>
      rw [hk] at hd
      cases e with
      | GroupCoordinatorNotAvailableError =>
        injection hd with hd
        subst hd
        exact part2 _ _ _ _ _ _ ht hp
      | KafkaUnavailableError => exact Except.noConfusion hd
      | InvalidOffsetStorageError s => exact Except.noConfusion hd
      | KeyError => exact Except.noConfusion hd
      | OtherError n => exact Except.noConfusion hd

/-- Closed instance of the C10 theorem: the dual-mode merge of backends
holding offsets 5 and 7 yields a non-negative current offset. -/
theorem merged_offsets_nonneg_witness : (0 : Int) ≤ 7 :=
  merged_offsets_nonneg.2.2 exFetchBoth "group" ["t"] true
    [("t", [(0, 7)])] "t" [(0, 7)] 0 7 rfl rfl rfl

/-! ## Claim C6 -/

/-- C6: a topic of the topic list that is absent from every source is
mapped by `merge_offsets_metadata` to an empty partition dictionary — the
topic key is present with value `{}`, not omitted. -/
theorem merge_offsets_metadata_absent_topic (topics : List String)
    (responses : List TopicOffsetsMap) (t : String) (ht : t ∈ topics)
    (habs : ∀ response ∈ responses, containsKey response t = false) :
    dictGet (merge_offsets_metadata topics responses) t = some [] := by
  rw [merge_offsets_metadata_char, if_pos ht]
  have hfilter : responses.filter (fun response => containsKey response t) = [] := by
    rw [List.filter_eq_nil_iff]
    intro r hr
    simp [habs r hr]
  rw [hfilter]
  rfl

/-- Closed instance of the C6 theorem: topic "t" is requested but only "u"
has offsets; the result still carries the key "t" with an empty dict. -/
theorem merge_offsets_metadata_absent_topic_witness :
    dictGet (merge_offsets_metadata ["t"] [[("u", [(0, 1)])]]) "t" = some [] :=
  merge_offsets_metadata_absent_topic ["t"] [[("u", [(0, 1)])]] "t"
    (by decide) (by decide)

/-! ## Claim C8 -/

/-- C8: `merge_partition_offsets` is commutative (any permutation of the
sources yields the same map), associative (merging the merge of two sources
with a third equals merging the first with the merge of the other two), and
idempotent under duplicate sources (repeating a source that already occurs
leaves the result unchanged); maps are compared extensionally, which is
Python dict equality. -/
theorem merge_partition_offsets_algebra :
    (∀ (S₁ S₂ : List PartitionOffsetsMap), S₁.Perm S₂ →
      ∀ p, dictGet (merge_partition_offsets S₁) p =
        dictGet (merge_partition_offsets S₂) p) ∧
    (∀ (a b c : PartitionOffsetsMap) (p : Nat),
      dictGet (merge_partition_offsets [merge_partition_offsets [a, b], c]) p =
      dictGet (merge_partition_offsets [a, merge_partition_offsets [b, c]]) p) ∧
    (∀ (S : List PartitionOffsetsMap) (d : PartitionOffsetsMap), d ∈ S →
      ∀ p, dictGet (merge_partition_offsets (S ++ [d])) p =
        dictGet (merge_partition_offsets S) p) := by
  refine ⟨fun S₁ S₂ h p => merge_perm h p, ?_, fun S d hd p => merge_dup S d hd p⟩
  intro a b c p
  have h1 := merge_flatten [] [a, b] [c] p
  have h2 := merge_flatten [a] [b, c] [] p
  simp only [List.nil_append, List.append_nil, List.cons_append,
    List.singleton_append] at h1 h2
  rw [h1, h2]

/-- Closed instance of the C8 theorem: swapping the two example sources and
appending a duplicate source both leave the merged map unchanged. -/
theorem merge_partition_offsets_algebra_witness :
    dictGet (merge_partition_offsets [[(0, 5)], [(0, 7)]]) 0 =
      dictGet (merge_partition_offsets [[(0, 7)], [(0, 5)]]) 0 ∧
    dictGet (merge_partition_offsets ([[(0, 5)], [(0, 7)]] ++ [[(0, 5)]])) 0 =
      dictGet (merge_partition_offsets [[(0, 5)], [(0, 7)]]) 0 :=
  ⟨merge_partition_offsets_algebra.1 _ _ (List.Perm.swap _ _ _) 0,
   merge_partition_offsets_algebra.2.2 _ _ (List.mem_cons_self _ _) 0⟩

/-! ## Claim C1 -/

/-- C1: dual mode fetches both backends with `raiseOnError=false`, absorbs
exactly a group-coordinator-not-available failure of the kafka-native fetch
into the empty mapping, propagates every other failure of either fetch, and
returns `merge_offsets_metadata` of the two results over the topic list; the
result depends only on the two `raiseOnError=false` backend calls.  On the
example behaviours, zookeeper 5 / kafka 7 merges to 7 and zookeeper 5 /
coordinator-down merges to 5. -/
theorem dual_mode_reconciliation_spec :
    (∀ (fetch : OffsetFetch) (group : String) (topics : List String)
      (raise_on_error : Bool),
      (∀ e, fetch group topics false "zookeeper" = .error e →
        _get_current_offsets_dual fetch group topics raise_on_error = .error e) ∧
      (∀ zk_offsets, fetch group topics false "zookeeper" = .ok zk_offsets →
        (∀ kafka_offsets, fetch group topics false "kafka" = .ok kafka_offsets →
          _get_current_offsets_dual fetch group topics raise_on_error =
            .ok (merge_offsets_metadata topics [zk_offsets, kafka_offsets])) ∧
        (fetch group topics false "kafka" = .error .GroupCoordinatorNotAvailableError →
          _get_current_offsets_dual fetch group topics raise_on_error =
            .ok (merge_offsets_metadata topics [zk_offsets, []])) ∧
        (∀ e, fetch group topics false "kafka" = .error e →
          e ≠ .GroupCoordinatorNotAvailableError →
          _get_current_offsets_dual fetch group topics raise_on_error = .error e)) ∧
      (∀ fetch' : OffsetFetch,
        fetch group topics false "zookeeper" = fetch' group topics false "zookeeper" →
        fetch group topics false "kafka" = fetch' group topics false "kafka" →
        _get_current_offsets_dual fetch group topics raise_on_error =
          _get_current_offsets_dual fetch' group topics raise_on_error)) ∧
    (∃ d, _get_current_offsets_dual exFetchBoth "group" ["t"] true = .ok d ∧
      (dictGet d "t").bind (fun pd => dictGet pd 0) = some 7) ∧
    (∃ d, _get_current_offsets_dual exFetchCoordinatorDown "group" ["t"] true = .ok d ∧
      (dictGet d "t").bind (fun pd => dictGet pd 0) = some 5) := by
  refine ⟨?_, ⟨[("t", [(0, 7)])], rfl, rfl⟩, ⟨[("t", [(0, 5)])], rfl, rfl⟩⟩
  intro fetch group topics raise_on_error
  refine ⟨?_, ?_, ?_⟩
  · intro e he
    unfold _get_current_offsets_dual
    rw [he]
  · intro zk hz
    refine ⟨?_, ?_, ?_⟩
    · intro k hk
      unfold _get_current_offsets_dual
      rw [hz, hk]
    · intro hk
      unfold _get_current_offsets_dual
      rw [hz, hk]
    · intro e hk hne
      unfold _get_current_offsets_dual
      rw [hz, hk]
      cases e with
      | GroupCoordinatorNotAvailableError => exact absurd rfl hne
      | KafkaUnavailableError => rfl
      | InvalidOffsetStorageError s => rfl
      | KeyError => rfl
      | OtherError n => rfl
  · intro fetch' h1 h2
    unfold _get_current_offsets_dual
    rw [h1, h2]

/-- Closed instance of the C1 theorem: an unhandled kafka-native failure
propagates out of dual mode. -/
theorem dual_mode_reconciliation_spec_witness :
    _get_current_offsets_dual exFetchKafkaBroken "group" ["t"] true =
      .error (.OtherError 3) :=
  ((dual_mode_reconciliation_spec.1 exFetchKafkaBroken "group" ["t"] true).2.1
    [("t", [(0, 5)])] rfl).2.2 (.OtherError 3) rfl (by decide)

/-! ## Claim C4 -/

/-- C4: `get_current_offsets` delegates modes "zookeeper" and "kafka"
directly to the single-backend fetch (returning its result or failure
unchanged), and for any mode outside zookeeper/kafka/dual it fails with
`InvalidOffsetStorageError` carrying the invalid value, independently of the
collaborator (no fetch is consulted). -/
theorem get_current_offsets_dispatch_spec :
    ∀ (fetch : OffsetFetch) (group : String) (topics : List String)
      (raise_on_error : Bool) (offset_storage : String),
      (offset_storage = "zookeeper" ∨ offset_storage = "kafka" →
        get_current_offsets fetch group topics raise_on_error offset_storage =
          fetch group topics raise_on_error offset_storage) ∧
      (offset_storage ≠ "zookeeper" → offset_storage ≠ "kafka" →
        offset_storage ≠ "dual" →
        get_current_offsets fetch group topics raise_on_error offset_storage =
          .error (.InvalidOffsetStorageError offset_storage) ∧
        ∀ fetch' : OffsetFetch,
          get_current_offsets fetch group topics raise_on_error offset_storage =
            get_current_offsets fetch' group topics raise_on_error offset_storage) := by
  intro fetch group topics raise_on_error offset_storage
  constructor
  · intro h
    unfold get_current_offsets
    rw [if_pos h]
  · intro h1 h2 h3
    have hcond : ¬ (offset_storage = "zookeeper" ∨ offset_storage = "kafka") := by
      rintro (h | h)
      exacts [h1 h, h2 h]
    constructor
    · unfold get_current_offsets
      rw [if_neg hcond, if_neg h3]
    · intro fetch'
      unfold get_current_offsets
      rw [if_neg hcond, if_neg h3, if_neg hcond, if_neg h3]

/-- Closed instance of the C4 theorem: zookeeper mode delegates, and the
unknown mode "chaos" yields the configuration error. -/
theorem get_current_offsets_dispatch_spec_witness :
    get_current_offsets exFetchBoth "group" ["t"] true "zookeeper" =
      .ok [("t", [(0, 5)])] ∧
    get_current_offsets exFetchBoth "group" ["t"] true "chaos" =
      .error (.InvalidOffsetStorageError "chaos") := by
  constructor
  · rw [(get_current_offsets_dispatch_spec exFetchBoth "group" ["t"] true
      "zookeeper").1 (Or.inl rfl)]
    rfl
  · exact ((get_current_offsets_dispatch_spec exFetchBoth "group" ["t"] true
      "chaos").2 (by decide) (by decide) (by decide)).1

/-! ## Claim C5 -/

theorem load_metadata_retry_of_error_ne (load : Nat → Except KafkaError Unit)
    (e : KafkaError) (h0 : load 0 = .error e)
    (hne : e ≠ .KafkaUnavailableError) :
    load_metadata_with_retry load = (.error e, 1) := by
  unfold load_metadata_with_retry
  rw [h0]
  cases e
  case KafkaUnavailableError => exact absurd rfl hne
  all_goals rfl

/-- C5: the metadata refresher invokes the client call at most twice, makes
the second invocation exactly when the first fails with
`KafkaUnavailableError`, returns a first-call success or non-transient
failure after one invocation, and after a transient first failure returns
whatever the second invocation produces (so a second failure propagates
uncaught). -/
theorem load_metadata_retry_spec (load : Nat → Except KafkaError Unit) :
    (load_metadata_with_retry load).2 ≤ 2 ∧
    ((load_metadata_with_retry load).2 = 2 ↔
      load 0 = .error .KafkaUnavailableError) ∧
    (load 0 = .ok () → load_metadata_with_retry load = (.ok (), 1)) ∧
    (∀ e, load 0 = .error e → e ≠ .KafkaUnavailableError →
      load_metadata_with_retry load = (.error e, 1)) ∧
    (load 0 = .error .KafkaUnavailableError →
      load_metadata_with_retry load = (load 1, 2)) := by
  by_cases hKU : load 0 = .error .KafkaUnavailableError
  · have hval : load_metadata_with_retry load = (load 1, 2) := by
      unfold load_metadata_with_retry
      rw [hKU]
      cases h1 : load 1 with
      | ok u => rfl
      | error e => rfl
    refine ⟨by rw [hval], ⟨fun _ => hKU, fun _ => by rw [hval]⟩,
      ?_, ?_, fun _ => hval⟩
    · intro h
      rw [hKU] at h
      exact Except.noConfusion h
    · intro e he hne
      rw [hKU] at he
      injection he with he
      exact absurd he.symm hne
  · cases h0 : load 0 with
    | ok u =>
      cases u
      have hval : load_metadata_with_retry load = (.ok (), 1) := by
        unfold load_metadata_with_retry
        rw [h0]
      refine ⟨by rw [hval]; norm_num, ?_, fun _ => hval, ?_,
        fun h => Except.noConfusion h⟩
      · constructor
        · intro h
          rw [hval] at h
          exact absurd h (by norm_num)
        · intro h
          exact Except.noConfusion h
      · intro e he hne
        exact Except.noConfusion he
    | error e =>
      have hne : e ≠ .KafkaUnavailableError := by
        intro hee
        exact hKU (by rw [h0, hee])
      have hval : load_metadata_with_retry load = (.error e, 1) :=
        load_metadata_retry_of_error_ne load e h0 hne
      refine ⟨by rw [hval]; norm_num, ?_, ?_, ?_, ?_⟩
      · constructor
        · intro h
          rw [hval] at h
          exact absurd h (by norm_num)
        · intro h
          injection h with h
          exact absurd h hne
      · intro h
        exact Except.noConfusion h
      · intro e' he hne'
        injection he with he
        rw [hval, he]
      · intro h
        injection h with h
        exact absurd h hne

/-- Closed instance of the C5 theorem: a transient first failure leads to a
second invocation whose outcome is returned. -/
theorem load_metadata_retry_spec_witness :
    load_metadata_with_retry
        (fun n => if n = 0 then .error .KafkaUnavailableError else .ok ()) =
      ((fun n => if n = 0 then (.error .KafkaUnavailableError :
          Except KafkaError Unit) else .ok ()) 1, 2) :=
  (load_metadata_retry_spec _).2.2.2.2 rfl

/-! ## Claim C7 -/

theorem containsKey_eq_true_iff {K V : Type} [DecidableEq K] (d : PyDict K V) (k : K) :
    containsKey d k = true ↔ dictGet d k ≠ none := by
  constructor
  · intro h hn
    have hf := (containsKey_eq_false_iff d k).mpr hn
    rw [h] at hf
    exact Bool.noConfusion hf
  · intro h
    cases hc : containsKey d k
    · exact absurd ((containsKey_eq_false_iff d k).mp hc) h
    · rfl

theorem buildRows_ok (gos : TopicOffsetsMap) (wms : WatermarkMap) (topic : String)
    (pd : PartitionOffsetsMap) (hpd : dictGet gos topic = some pd)
    (l : List (Nat × Int))
    (hl : ∀ pe ∈ l, dictGet pd pe.1 = some pe.2)
    (hw : ∀ pe ∈ l, ∃ wt w, dictGet wms topic = some wt ∧ dictGet wt pe.1 = some w) :
    buildRows gos wms topic l = .ok (l.map (snapshotOf wms topic)) := by
  induction l with
  | nil => rfl
  | cons pe rest ih =>
    obtain ⟨wt, w, hwt, hwp⟩ := hw pe (List.mem_cons_self _ _)
    have hcur := hl pe (List.mem_cons_self _ _)
    have ihr := ih (fun x hx => hl x (List.mem_cons_of_mem _ hx))
      (fun x hx => hw x (List.mem_cons_of_mem _ hx))
    simp only [buildRows, hpd, hcur, hwt, hwp, ihr, List.map_cons]
    simp [snapshotOf, watermarkAt, hwt, hwp]

theorem buildResult_char (gos : TopicOffsetsMap) (wms : WatermarkMap) :
    ∀ (rest : List (String × PartitionOffsetsMap))
      (acc : PyDict String (List ConsumerPartitionOffsets)),
    (∀ te ∈ rest, buildRows gos wms te.1 te.2 =
      .ok (te.2.map (snapshotOf wms te.1))) →
    (∀ te ∈ rest, containsKey acc te.1 = false) →
    (dictKeys rest).Nodup →
    ∃ res, buildResult gos wms rest acc = .ok res ∧
      dictKeys res = dictKeys acc ++ dictKeys rest ∧
      (∀ te ∈ rest, dictGet res te.1 = some (te.2.map (snapshotOf wms te.1))) ∧
      (∀ t, containsKey acc t = true → dictGet res t = dictGet acc t) := by
  intro rest
  induction rest with
  | nil =>
    intro acc _ _ _
    exact ⟨acc, rfl, by simp [dictKeys], by simp, fun t _ => rfl⟩
  | cons te rest ih =>
    intro acc hrows hdisj hnd
    rw [dictKeys, List.map_cons, List.nodup_cons] at hnd
    have hrow := hrows te (List.mem_cons_self _ _)
    have haccte : containsKey acc te.1 = false := hdisj te (List.mem_cons_self _ _)
    have hstep : buildResult gos wms (te :: rest) acc =
        buildResult gos wms rest
          (dictSet acc te.1 (te.2.map (snapshotOf wms te.1))) := by
      simp only [buildResult, hrow]
    have hkeys' : dictKeys (dictSet acc te.1 (te.2.map (snapshotOf wms te.1))) =
        dictKeys acc ++ [te.1] := by
      rw [dictKeys_set, haccte]
      simp
    have hdisj' : ∀ te' ∈ rest,
        containsKey (dictSet acc te.1 (te.2.map (snapshotOf wms te.1))) te'.1 = false := by
      intro te' hte'
      rw [containsKey_eq_false_iff, dictGet_set]
      have hne : ¬ te'.1 = te.1 := by
        intro he
        exact hnd.1 (he ▸ List.mem_map.mpr ⟨te', hte', rfl⟩)
      rw [if_neg hne]
      exact (containsKey_eq_false_iff _ _).mp (hdisj te' (List.mem_cons_of_mem _ hte'))
    obtain ⟨res, hres, hkeys, hget, hpres⟩ :=
      ih (dictSet acc te.1 (te.2.map (snapshotOf wms te.1)))
        (fun te' h => hrows te' (List.mem_cons_of_mem _ h)) hdisj' hnd.2
    have hcontte : containsKey (dictSet acc te.1 (te.2.map (snapshotOf wms te.1)))
        te.1 = true := by
      rw [containsKey_eq_true_iff, dictGet_set, if_pos rfl]
      exact Option.noConfusion
    refine ⟨res, by rw [hstep]; exact hres, ?_, ?_, ?_⟩
    · rw [hkeys, hkeys', List.append_assoc]
      rfl
    · intro te' hte'
      rcases List.mem_cons.mp hte' with he | h
      · subst he
        rw [hpres te'.1 hcontte, dictGet_set, if_pos rfl]
      · exact hget te' h
    · intro t hct
      have hne : ¬ t = te.1 := by
        intro he
        rw [he, haccte] at hct
        exact Bool.noConfusion hct
      have hcont' : containsKey (dictSet acc te.1 (te.2.map (snapshotOf wms te.1)))
          t = true := by
        rw [containsKey_eq_true_iff, dictGet_set, if_neg hne]
        exact (containsKey_eq_true_iff _ _).mp hct
      rw [hpres t hcont', dictGet_set, if_neg hne]

/-- C7: when metadata refresh, offset reconciliation and watermark fetch all
succeed and every topic-partition of the reconciled offsets has a watermark
entry (offset dictionaries being well-formed, i.e. duplicate-key-free),
`get_consumer_offsets_metadata` returns a mapping whose keys are exactly the
topics of the reconciled offsets, each topic carrying one snapshot per
partition with `current` the reconciled offset and `highmark`/`lowmark`
taken from that partition's watermark entry. -/
theorem get_consumer_offsets_metadata_spec
    (load : Nat → Except KafkaError Unit) (fetch : OffsetFetch)
    (watermark_fetch : WatermarkFetch) (group : String) (topics : List String)
    (raise_on_error : Bool) (offset_storage : String)
    (group_offsets : TopicOffsetsMap) (watermarks : WatermarkMap)
    (hload : (load_metadata_with_retry load).1 = .ok ())
    (hoff : get_current_offsets fetch group topics raise_on_error offset_storage =
      .ok group_offsets)
    (hwm : watermark_fetch topics raise_on_error = .ok watermarks)
    (hnd : (dictKeys group_offsets).Nodup)
    (hnd2 : ∀ te ∈ group_offsets, (dictKeys te.2).Nodup)
    (htotal : ∀ te ∈ group_offsets, ∀ pe ∈ te.2,
      ∃ wt w, dictGet watermarks te.1 = some wt ∧ dictGet wt pe.1 = some w) :
    ∃ res, get_consumer_offsets_metadata load fetch watermark_fetch group topics
        raise_on_error offset_storage = .ok res ∧
      dictKeys res = dictKeys group_offsets ∧
      ∀ te ∈ group_offsets,
        dictGet res te.1 = some (te.2.map (snapshotOf watermarks te.1)) := by
  have hrows : ∀ te ∈ group_offsets,
      buildRows group_offsets watermarks te.1 te.2 =
        .ok (te.2.map (snapshotOf watermarks te.1)) := by
    intro te hte
    exact buildRows_ok group_offsets watermarks te.1 te.2
      (dictGet_of_mem_nodup _ hnd te hte) te.2
      (fun pe hpe => dictGet_of_mem_nodup _ (hnd2 te hte) pe hpe)
      (fun pe hpe => htotal te hte pe hpe)
  obtain ⟨res, hres, hkeys, hget, _⟩ := buildResult_char group_offsets watermarks
    group_offsets [] hrows (fun te _ => rfl) hnd
  refine ⟨res, ?_, by simpa [dictKeys] using hkeys, hget⟩
  simp only [get_consumer_offsets_metadata, hload, hoff, hwm]
  exact hres

/-- Closed instance of the C7 theorem on a one-topic, one-partition
snapshot assembly. -/
theorem get_consumer_offsets_metadata_spec_witness :
    ∃ res, get_consumer_offsets_metadata (fun _ => .ok ()) exFetchBoth
        (fun _ _ => .ok [("t", [(0, ⟨10, 1⟩)])]) "group" ["t"] true "kafka" =
        .ok res ∧
      dictKeys res = dictKeys [("t", [(0, (7 : Int))])] ∧
      ∀ te ∈ [("t", [(0, (7 : Int))])],
        dictGet res te.1 =
          some (te.2.map (snapshotOf [("t", [(0, (⟨10, 1⟩ : Watermark))])] te.1)) :=
  get_consumer_offsets_metadata_spec (fun _ => .ok ()) exFetchBoth
    (fun _ _ => .ok [("t", [(0, ⟨10, 1⟩)])]) "group" ["t"] true "kafka"
    [("t", [(0, 7)])] [("t", [(0, ⟨10, 1⟩)])] rfl rfl rfl (by decide)
    (by intro te hte; rw [List.mem_singleton] at hte; subst hte; decide)
    (by
      intro te hte pe hpe
      rw [List.mem_singleton] at hte
      subst hte
      rw [List.mem_singleton] at hpe
      subst hpe
      exact ⟨[(0, ⟨10, 1⟩)], ⟨10, 1⟩, rfl, rfl⟩)

/-! ## Claim C3 -/

theorem appendFold_none_iff (bs : List Nat)
    (acc : PyDict Nat (List (String × Nat))) (tp : String × Nat) (b : Nat) :
    dictGet
      (bs.foldl (fun result b' =>
        dictSet result b' (((dictGet result b').getD []) ++ [tp])) acc) b = none ↔
    dictGet acc b = none ∧ b ∉ bs := by
  induction bs generalizing acc with
  | nil => simp
  | cons b' t ih =>
    rw [List.foldl_cons, ih, dictGet_set]
    by_cases he : b = b'
    · rw [if_pos he]
      simp [he]
    · rw [if_neg he]
      simp [List.mem_cons, he]

theorem appendFold_mem_iff (bs : List Nat)
    (acc : PyDict Nat (List (String × Nat))) (tp : String × Nat) (b : Nat)
    (x : String × Nat) :
    x ∈ (dictGet
      (bs.foldl (fun result b' =>
        dictSet result b' (((dictGet result b').getD []) ++ [tp])) acc) b).getD [] ↔
    x ∈ (dictGet acc b).getD [] ∨ (b ∈ bs ∧ x = tp) := by
  induction bs generalizing acc with
  | nil => simp
  | cons b' t ih =>
    rw [List.foldl_cons, ih, dictGet_set]
    by_cases he : b = b'
    · rw [if_pos he]
      simp only [he, Option.getD_some, List.mem_append, List.mem_singleton,
        List.mem_cons, true_or, true_and]
      tauto
    · rw [if_neg he]
      simp [List.mem_cons, he]

theorem underRepFold_none_iff (t : String) (k : Nat)
    (pes : List (Nat × PartitionMetadata))
    (acc : PyDict Nat (List (String × Nat))) (b : Nat) :
    dictGet
      (pes.foldl (fun result pe =>
        if pe.2.isr.length < k then
          (pe.2.replicas.filter (fun b' => decide (b' ∉ pe.2.isr))).foldl
            (fun result b' =>
              dictSet result b' (((dictGet result b').getD []) ++ [(t, pe.1)]))
            result
        else result) acc) b = none ↔
    dictGet acc b = none ∧ ∀ pe ∈ pes,
      ¬(pe.2.isr.length < k ∧ b ∈ pe.2.replicas ∧ b ∉ pe.2.isr) := by
  induction pes generalizing acc with
  | nil => simp
  | cons pe rest ih =>
    rw [List.foldl_cons, ih]
    have hmemf : ∀ b0 : Nat,
        b0 ∈ pe.2.replicas.filter (fun b' => decide (b' ∉ pe.2.isr)) ↔
        b0 ∈ pe.2.replicas ∧ b0 ∉ pe.2.isr := by
      intro b0
      simp [List.mem_filter]
    by_cases hc : pe.2.isr.length < k
    · rw [if_pos hc, appendFold_none_iff]
      constructor
      · rintro ⟨⟨h1, h2⟩, h3⟩
        refine ⟨h1, fun pe' hpe' => ?_⟩
        rcases List.mem_cons.mp hpe' with he | hm
        · subst he
          rintro ⟨_, hr, hi⟩
          exact h2 ((hmemf b).mpr ⟨hr, hi⟩)
        · exact h3 pe' hm
      · rintro ⟨h1, h2⟩
        refine ⟨⟨h1, fun hbm => ?_⟩,
          fun pe' hm => h2 pe' (List.mem_cons_of_mem _ hm)⟩
        obtain ⟨hr, hi⟩ := (hmemf b).mp hbm
        exact h2 pe (List.mem_cons_self _ _) ⟨hc, hr, hi⟩
    · rw [if_neg hc]
      constructor
      · rintro ⟨h1, h3⟩
        refine ⟨h1, fun pe' hpe' => ?_⟩
        rcases List.mem_cons.mp hpe' with he | hm
        · subst he
          rintro ⟨hck, _⟩
          exact hc hck
        · exact h3 pe' hm
      · rintro ⟨h1, h2⟩
        exact ⟨h1, fun pe' hm => h2 pe' (List.mem_cons_of_mem _ hm)⟩

theorem underRepFold_mem_iff (t : String) (k : Nat)
    (pes : List (Nat × PartitionMetadata))
    (acc : PyDict Nat (List (String × Nat))) (b : Nat) (x : String × Nat) :
    x ∈ (dictGet
      (pes.foldl (fun result pe =>
        if pe.2.isr.length < k then
          (pe.2.replicas.filter (fun b' => decide (b' ∉ pe.2.isr))).foldl
            (fun result b' =>
              dictSet result b' (((dictGet result b').getD []) ++ [(t, pe.1)]))
            result
        else result) acc) b).getD [] ↔
    x ∈ (dictGet acc b).getD [] ∨ ∃ pe ∈ pes, x = (t, pe.1) ∧
      pe.2.isr.length < k ∧ b ∈ pe.2.replicas ∧ b ∉ pe.2.isr := by
  induction pes generalizing acc with
  | nil => simp
  | cons pe rest ih =>
    rw [List.foldl_cons, ih]
    have hmemf : ∀ b0 : Nat,
        b0 ∈ pe.2.replicas.filter (fun b' => decide (b' ∉ pe.2.isr)) ↔
        b0 ∈ pe.2.replicas ∧ b0 ∉ pe.2.isr := by
      intro b0
      simp [List.mem_filter]
    by_cases hc : pe.2.isr.length < k
    · rw [if_pos hc, appendFold_mem_iff]
      constructor
      · rintro ((hx | ⟨hbf, hxe⟩) | ⟨pe', hm, hrest⟩)
        · exact Or.inl hx
        · obtain ⟨hr, hi⟩ := (hmemf b).mp hbf
          exact Or.inr ⟨pe, List.mem_cons_self _ _, hxe, hc, hr, hi⟩
        · exact Or.inr ⟨pe', List.mem_cons_of_mem _ hm, hrest⟩
      · rintro (hx | ⟨pe', hm, hxe, hck, hr, hi⟩)
        · exact Or.inl (Or.inl hx)
        · rcases List.mem_cons.mp hm with he | hm'
          · subst he
            exact Or.inl (Or.inr ⟨(hmemf b).mpr ⟨hr, hi⟩, hxe⟩)
          · exact Or.inr ⟨pe', hm', hxe, hck, hr, hi⟩
    · rw [if_neg hc]
      constructor
      · rintro (hx | ⟨pe', hm, hrest⟩)
        · exact Or.inl hx
        · exact Or.inr ⟨pe', List.mem_cons_of_mem _ hm, hrest⟩
      · rintro (hx | ⟨pe', hm, hxe, hck, hr, hi⟩)
        · exact Or.inl hx
        · rcases List.mem_cons.mp hm with he | hm'
          · subst he
            exact absurd hck hc
          · exact Or.inr ⟨pe', hm', hxe, hck, hr, hi⟩

theorem processFold_none_iff (k : Nat)
    (md : List (String × PyDict Nat PartitionMetadata))
    (acc : PyDict Nat (List (String × Nat))) (b : Nat) :
    dictGet
      (md.foldl (fun result te =>
        te.2.foldl (fun result pe =>
          if pe.2.isr.length < k then
            (pe.2.replicas.filter (fun b' => decide (b' ∉ pe.2.isr))).foldl
              (fun result b' =>
                dictSet result b' (((dictGet result b').getD []) ++ [(te.1, pe.1)]))
              result
          else result) result) acc) b = none ↔
    dictGet acc b = none ∧ ∀ te ∈ md, ∀ pe ∈ te.2,
      ¬(pe.2.isr.length < k ∧ b ∈ pe.2.replicas ∧ b ∉ pe.2.isr) := by
  induction md generalizing acc with
  | nil => simp
  | cons te rest ih =>
    rw [List.foldl_cons, ih, underRepFold_none_iff]
    constructor
    · rintro ⟨⟨h1, h2⟩, h3⟩
      refine ⟨h1, fun te' hte' => ?_⟩
      rcases List.mem_cons.mp hte' with he | hm
      · subst he
        exact h2
      · exact h3 te' hm
    · rintro ⟨h1, h2⟩
      exact ⟨⟨h1, h2 te (List.mem_cons_self _ _)⟩,
        fun te' hm => h2 te' (List.mem_cons_of_mem _ hm)⟩

theorem processFold_mem_iff (k : Nat)
    (md : List (String × PyDict Nat PartitionMetadata))
    (acc : PyDict Nat (List (String × Nat))) (b : Nat) (x : String × Nat) :
    x ∈ (dictGet
      (md.foldl (fun result te =>
        te.2.foldl (fun result pe =>
          if pe.2.isr.length < k then
            (pe.2.replicas.filter (fun b' => decide (b' ∉ pe.2.isr))).foldl
              (fun result b' =>
                dictSet result b' (((dictGet result b').getD []) ++ [(te.1, pe.1)]))
              result
          else result) result) acc) b).getD [] ↔
    x ∈ (dictGet acc b).getD [] ∨ ∃ te ∈ md, ∃ pe ∈ te.2, x = (te.1, pe.1) ∧
      pe.2.isr.length < k ∧ b ∈ pe.2.replicas ∧ b ∉ pe.2.isr := by
  induction md generalizing acc with
  | nil => simp
  | cons te rest ih =>
    rw [List.foldl_cons, ih, underRepFold_mem_iff]
    constructor
    · rintro ((hx | ⟨pe', hm, hrest⟩) | ⟨te', hte', hrest⟩)
      · exact Or.inl hx
      · exact Or.inr ⟨te, List.mem_cons_self _ _, pe', hm, hrest⟩
      · exact Or.inr ⟨te', List.mem_cons_of_mem _ hte', hrest⟩
    · rintro (hx | ⟨te', hte', pe', hm, hrest⟩)
      · exact Or.inl (Or.inl hx)
      · rcases List.mem_cons.mp hte' with he | hm'
        · subst he
          exact Or.inl (Or.inr ⟨pe', hm, hrest⟩)
        · exact Or.inr ⟨te', hm', pe', hm, hrest⟩

/-- C3 (spec-modelled): `processTopicPartitionMetadata` maps a broker id to
exactly the (topic, partition) pairs whose metadata entry has an in-sync set
smaller than the threshold and lists the broker among the replicas but not
among the in-sync replicas; a partition meeting the threshold contributes
nothing even when replicas minus isr is non-empty, a broker with no such
pair is absent (so the empty batch yields the empty mapping), and on the
worked scenario threshold 2 yields `{}` while threshold 3 yields
`{300: [("topic1", 0)]}`. -/
theorem process_topic_partition_metadata_spec :
    (∀ (metadata : PyDict String (PyDict Nat PartitionMetadata)) (min_isr : Nat)
      (b : Nat) (x : String × Nat),
      x ∈ (dictGet (_process_topic_partition_metadata metadata min_isr) b).getD [] ↔
        ∃ te ∈ metadata, ∃ pe ∈ te.2, x = (te.1, pe.1) ∧
          pe.2.isr.length < min_isr ∧ b ∈ pe.2.replicas ∧ b ∉ pe.2.isr) ∧
    (∀ (metadata : PyDict String (PyDict Nat PartitionMetadata)) (min_isr : Nat)
      (b : Nat),
      dictGet (_process_topic_partition_metadata metadata min_isr) b = none ↔
        ∀ te ∈ metadata, ∀ pe ∈ te.2, ¬(pe.2.isr.length < min_isr ∧
          b ∈ pe.2.replicas ∧ b ∉ pe.2.isr)) ∧
    (∀ min_isr, _process_topic_partition_metadata [] min_isr = []) ∧
    _process_topic_partition_metadata exMetadata 2 = [] ∧
    _process_topic_partition_metadata exMetadata 3 = [(300, [("topic1", 0)])] := by
  refine ⟨?_, ?_, fun _ => rfl, by decide, by decide⟩
  · intro metadata min_isr b x
    unfold _process_topic_partition_metadata
    rw [processFold_mem_iff]
    simp [dictGet]
  · intro metadata min_isr b
    unfold _process_topic_partition_metadata
    rw [processFold_none_iff]
    simp [dictGet]

/-- Closed instance of the C3 theorem: broker 300 is flagged for
("topic1", 0) at threshold 3. -/
theorem process_topic_partition_metadata_spec_witness :
    ("topic1", 0) ∈
      (dictGet (_process_topic_partition_metadata exMetadata 3) 300).getD [] :=
  (process_topic_partition_metadata_spec.1 exMetadata 3 300 ("topic1", 0)).mpr
    ⟨("topic1", [(0, ⟨"topic1", 0, 666, [300, 500, 666], [500, 666], 0⟩)]),
      by decide,
      (0, ⟨"topic1", 0, 666, [300, 500, 666], [500, 666], 0⟩),
      by decide, rfl, by decide, by decide, by decide⟩

/-! ## Claim C9 -/

theorem joinComma_nil : joinComma [] = "" := rfl

theorem joinComma_length (l : List String) (h : l ≠ []) :
    (joinComma l).length = (l.map String.length).sum + (l.length - 1) := by
  induction l with
  | nil => exact absurd rfl h
  | cons x t ih =>
    cases t with
    | nil => simp [joinComma]
    | cons y u =>
      rw [joinComma, String.length_append, String.length_append,
        ih (by simp)]
      simp only [List.map_cons, List.sum_cons, List.length_cons]
      have hcomma : (",".length : Nat) = 1 := rfl
      rw [hcomma]
      omega

/-- C9 (spec-modelled): for every non-empty broker map, `prepareHostList`
returns the `"host:port"` renderings of the brokers — each broker exactly
once, in some order — joined with a single comma between consecutive
entries and no trailing separator (so the total length is the sum of the
rendered lengths plus one separator per gap); on the single-broker map the
result is `"hostname00:1234"`. -/
theorem prepare_host_list_spec :
    (∀ brokers : PyDict Nat BrokerInfo, brokers ≠ [] →
      ∃ rendered : List String,
        rendered.Perm (brokers.map (fun kv => renderBroker kv.2)) ∧
        _prepare_host_list brokers = joinComma rendered ∧
        (_prepare_host_list brokers).length =
          ((brokers.map (fun kv => renderBroker kv.2)).map String.length).sum +
            (brokers.length - 1)) ∧
    _prepare_host_list exBrokerList = "hostname00:1234" := by
  refine ⟨?_, rfl⟩
  intro brokers hne
  refine ⟨brokers.map (fun kv => renderBroker kv.2), List.Perm.refl _, ?_, ?_⟩
  · rfl
  · unfold _prepare_host_list
    rw [joinComma_length _ (by simpa using hne)]
    simp

/-- Closed instance of the C9 theorem at the single-broker map. -/
theorem prepare_host_list_spec_witness :
    ∃ rendered : List String,
      rendered.Perm (exBrokerList.map (fun kv => renderBroker kv.2)) ∧
      _prepare_host_list exBrokerList = joinComma rendered ∧
      (_prepare_host_list exBrokerList).length =
        ((exBrokerList.map (fun kv => renderBroker kv.2)).map String.length).sum +
          (exBrokerList.length - 1) :=
  prepare_host_list_spec.1 exBrokerList (by decide)
